import Mathlib

/-!
Verification of the tick ingestion / storage / analytics core of the
stop-destroying-videogames repository, as a shallow embedding in Lean.

Sources embedded here:
- src/routes/api/tick/+server.ts           (locked-file ingestion endpoint, POST)
- src/routes/api/tick-history/+server.ts   (relational read endpoint: history,
  rates, today stats, retention filter, down-sampling)
- src/lib/forecast/holtWinters.ts          (Holt-Winters forecast engine)
- the relational ingestion variant and the client-side rate computation found
  in the repository prototype files (isDuplicateRequest, calculateRate).

Conventions: JS numbers holding epoch milliseconds and signature counts are
embedded as Int (the validated values are integers); rate and forecast
arithmetic, done in JS floating point, is embedded as exact rational
arithmetic over Rat, except for the one square root in the Holt-Winters
residual spread, which lives in Real.
-/

namespace SDV

/-- Data model of one observation: a tick is a pair of an epoch-millisecond
timestamp and a signature count, mirroring the TypeScript shape
of a tick record with fields ts and count. -/
structure Tick where
  ts : Int
  count : Int
deriving DecidableEq, Repr

/-- Comparator relation used by every sort in the repository:
the JS comparator on a tick pair compares by the ts field ascending. -/
def tsLe (a b : Tick) : Prop := a.ts ≤ b.ts

instance : DecidableRel tsLe := fun a b => inferInstanceAs (Decidable (a.ts ≤ b.ts))

instance : IsTotal Tick tsLe := ⟨fun a b => Int.le_total a.ts b.ts⟩

instance : IsTrans Tick tsLe := ⟨fun _ _ _ h1 h2 => le_trans h1 h2⟩

/-- Embedding of the JS in-place stable sort by timestamp, the call that sorts
the array with the comparator subtracting the two ts fields; a stable
insertion sort has the same input-output behaviour. -/
def sortTicks (l : List Tick) : List Tick := List.insertionSort tsLe l

/-- Embedding of the duplicate-timestamp upsert of the ingestion POST handler:
findIndex locates the first entry with the same ts and its count is
overwritten, otherwise the new tick is pushed at the end.  The recursion
replaces the first match and appends when there is none, which is exactly
that behaviour. -/
def upsertTick : List Tick → Tick → List Tick
  | [], nt => [nt]
  | t :: rest, nt => if t.ts = nt.ts then { t with count := nt.count } :: rest
                     else t :: upsertTick rest nt

/-- Embedding of one accepted ingestion write of the POST handler, after
validation and deduplication: when old data is present the archival step
replaces the array by a filtered subset of it (modelled by the keep
predicate together with the doClean flag), then the new tick is upserted
and the array is re-sorted by timestamp before being persisted. -/
def tickWrite (keep : Tick → Bool) (doClean : Bool) (arr : List Tick) (nt : Tick) :
    List Tick :=
  sortTicks (upsertTick (if doClean then arr.filter keep else arr) nt)

/-- One ingestion write as an element of a write sequence: the tick together
with the archival filter in effect for that write. -/
structure WriteOp where
  tick : Tick
  keep : Tick → Bool
  doClean : Bool

/-- State of the persisted tick store after a sequence of accepted writes,
starting from the empty store (no tick-history file yet). -/
def applyWrites (ws : List WriteOp) : List Tick :=
  ws.foldl (fun arr w => tickWrite w.keep w.doClean arr w.tick) []

/-- Projection of a store to its list of timestamps. -/
def tsList (l : List Tick) : List Int := l.map (·.ts)

/-- Invariant maintained by the write path: pairwise-distinct timestamps and
strict ascending order. -/
def StoreInv (s : List Tick) : Prop :=
  (tsList s).Nodup ∧ s.Pairwise (fun a b => a.ts < b.ts)

/-- Retention window of the relational variant: 26 hours in milliseconds. -/
def RETENTION_MS : Int := 26 * 60 * 60 * 1000

/-- Retention predicate of every read query of the relational endpoint: the
WHERE clause keeps exactly the rows whose timestamp is strictly greater
than now minus the retention window. -/
def inRetention (now : Int) (t : Tick) : Bool := decide (now - RETENTION_MS < t.ts)

/-- Rows of the signatures table that a retention-filtered ascending-order
query returns: the SELECT filters by the retention cutoff and orders by
timestamp ascending. -/
def retainedRows (store : List Tick) (now : Int) : List Tick :=
  sortTicks (store.filter (inRetention now))

/-- Embedding of the modulo down-sampling subquery of getHistoryData: row
numbers are 1-based and the outer WHERE keeps the rows whose row number is
divisible by the step. -/
def everyKth (l : List Tick) (k : Nat) : List Tick :=
  (l.enum.filter (fun p => (p.1 + 1) % k = 0)).map (·.2)

/-- Embedding of getHistoryData of the relational read endpoint: rows within
the retention window ordered ascending; with a positive limit above 10000 the
result is the modulo down-sample with step max 1 (total / min(limit, 5000)),
with a positive limit of at most 10000 the result is truncated by LIMIT, and
with limit 0 or below everything in the window is returned.  Database errors
are out of scope of this embedding (the catch branch returns an empty list). -/
def getHistoryData (store : List Tick) (now : Int) (limit : Int) : List Tick :=
  let rows := retainedRows store now
  if 0 < limit then
    if 10000 < limit then
      everyKth rows (max 1 (rows.length / (min limit 5000).toNat))
    else
      rows.take limit.toNat
  else rows

/-- Timezone offset used by the relational endpoint for local-day boundaries:
two hours in milliseconds. -/
def TZ_OFFSET_MS : Int := 2 * 60 * 60 * 1000

/-- Milliseconds per day. -/
def MS_PER_DAY : Int := 24 * 60 * 60 * 1000

/-- Embedding of getLocalStartOfDay: shift the instant by the timezone offset,
truncate to the UTC midnight of the shifted instant via the date
constructor (floor division by the day length), and shift back. -/
def getLocalStartOfDay (ts : Int) : Int :=
  (ts + TZ_OFFSET_MS).fdiv MS_PER_DAY * MS_PER_DAY - TZ_OFFSET_MS

/-- Result record of the today-stats computation, restricted to the fields
the claims are about (the formatted countdown string is presentation only). -/
structure TodayStats where
  collected : Int
  baselineKnown : Bool
  dataPointsToday : Nat
  utcStartOfDay : Int
deriving DecidableEq, Repr

/-- Rows of the signatures table at or after the local day start, the WHERE
clause of the today-stats query. -/
def todayRows (store : List Tick) (now : Int) : List Tick :=
  store.filter (fun t => decide (getLocalStartOfDay now ≤ t.ts))

/-- Embedding of calculateTodayStats of the relational read endpoint: one
aggregate query over the rows at or after the local day start computing
COUNT(*), MIN(count) as the baseline and MAX(count) as the current value;
collected is the clamped difference max(0, current - baseline) when at least
one row exists, and 0 with baseline unknown otherwise. -/
def calculateTodayStats (store : List Tick) (now : Int) : TodayStats :=
  let rows := todayRows store now
  let collected : Int :=
    match (rows.map (·.count)).min?, (rows.map (·.count)).max? with
    | some mn, some mx => max 0 (mx - mn)
    | _, _ => 0
  { collected := collected
    baselineKnown := decide (0 < rows.length)
    dataPointsToday := rows.length
    utcStartOfDay := getLocalStartOfDay now }

/-- Shared core of the client rate computation: given the first and last tick
of a selection, the per-second delta scaled to the target unit, computed only
when the time delta is positive (the JS code falls through otherwise). -/
def rateFrom (a b : Tick) (targetUnit : Rat) : Option Rat :=
  let dt : Rat := ((b.ts - a.ts : Int) : Rat) / 1000
  let dc : Rat := ((b.count - a.count : Int) : Rat)
  if 0 < dt then some (dc / dt * targetUnit) else none

/-- Last two elements of a list, the JS indexing at length minus two and
length minus one used by the fallback branch of calculateRate. -/
def lastTwoOf (l : List Tick) : Option (Tick × Tick) :=
  match l[l.length - 2]?, l[l.length - 1]? with
  | some a, some b => some (a, b)
  | _, _ => none

/-- Embedding of the client-side calculateRate: select the ticks inside the
trailing window, and with at least two of them take the first and last of the
sorted selection and return the per-second rate scaled to the target unit
when the time delta is positive; otherwise fall back to the last two ticks of
the whole sorted history under the same guard, and finally to 0. -/
def calculateRate (h : List Tick) (now windowMs : Int) (targetUnit : Rat) : Rat :=
  let windowTicks := h.filter (fun t => decide (now - t.ts ≤ windowMs))
  let winRes : Option Rat :=
    if 2 ≤ windowTicks.length then
      let s := sortTicks windowTicks
      match s.head?, s.getLast? with
      | some a, some b => rateFrom a b targetUnit
      | _, _ => none
    else none
  match winRes with
  | some r => r
  | none =>
    let fb : Option Rat :=
      if 2 ≤ h.length then
        match lastTwoOf (sortTicks h) with
        | some (a, b) => rateFrom a b targetUnit
        | none => none
      else none
    fb.getD 0

/-- Result of one call of the ingestion endpoint, abstracting the HTTP
response: 204 success, 400 validation rejection. -/
inductive IngestResult where
  | ok
  | invalid
deriving DecidableEq, Repr

/-- Process state of the ingestion endpoint that the claims depend on: the
in-memory last-written pair used for deduplication, and the persisted store. -/
structure ServerState where
  lastWritten : Option Tick
  store : List Tick
deriving DecidableEq, Repr

/-- Embedding of the validation of the file-variant ingestion POST handler:
the request is rejected unless ts is a positive number, count is
non-negative, and ts is at most one minute ahead of the current time. -/
def validTick (now tsv cnt : Int) : Prop :=
  0 < tsv ∧ 0 ≤ cnt ∧ tsv ≤ now + 60000

instance (now tsv cnt : Int) : Decidable (validTick now tsv cnt) :=
  inferInstanceAs (Decidable (_ ∧ _ ∧ _))

/-- Embedding of the ingestion POST handler after rate limiting, for a write
whose persistence succeeds: validation, then the exact-duplicate check
against the last written pair (which short-circuits to a 204 no-op without
touching the store), then the archival-filter/upsert/sort write, after which
the last-written cache is updated. -/
def ingest (st : ServerState) (now tsv cnt : Int) (keep : Tick → Bool)
    (doClean : Bool) : IngestResult × ServerState :=
  if ¬ validTick now tsv cnt then (.invalid, st)
  else if st.lastWritten = some ⟨tsv, cnt⟩ then (.ok, st)
  else (.ok, ⟨some ⟨tsv, cnt⟩, tickWrite keep doClean st.store ⟨tsv, cnt⟩⟩)

/-- Content of a stored file in the file-system model: either a completely
written serialization of a tick array, or the leftovers of an interrupted
write. -/
inductive FileContent where
  | complete (data : List Tick)
  | truncated
deriving DecidableEq, Repr

/-- The slice of the file system the persistence step touches: the primary
store file (the tick-history JSON) and the temporary file path used by the
write-then-rename sequence. -/
structure StoreFS where
  db : Option FileContent
  tmp : Option FileContent
deriving DecidableEq, Repr

/-- Failure scenario injected into the persistence step: everything succeeds,
the temporary-file write fails (possibly leaving truncated bytes at the
temporary path), or the rename fails. -/
inductive PersistOutcome where
  | allOk
  | tmpWriteFails
  | renameFails
deriving DecidableEq, Repr

/-- Embedding of the atomic persistence step of the ingestion POST handler:
the full array is written to a temporary path, then renamed over the primary
file; on any failure the catch block unlinks the temporary file (the unlink
may itself fail and is ignored, modelled by the cleanupOk flag) and the error
propagates, so the handler reports a failure.  Returns the resulting file
system and whether the write succeeded. -/
def persistStore (fs : StoreFS) (arr : List Tick) (outcome : PersistOutcome)
    (cleanupOk : Bool) : StoreFS × Bool :=
  match outcome with
  | .allOk =>
      let afterWrite : StoreFS := { fs with tmp := some (.complete arr) }
      ({ db := afterWrite.tmp, tmp := none }, true)
  | .tmpWriteFails =>
      let afterWrite : StoreFS := { fs with tmp := some .truncated }
      (if cleanupOk then { afterWrite with tmp := none } else afterWrite, false)
  | .renameFails =>
      let afterWrite : StoreFS := { fs with tmp := some (.complete arr) }
      (if cleanupOk then { afterWrite with tmp := none } else afterWrite, false)

/-- Fitted Holt-Winters smoothing state: level, trend and the seasonal
indices, one per position of the season. -/
structure HWState where
  level : Rat
  trend : Rat
  si : List Rat
deriving DecidableEq, Repr

/-- Average of one season of the series: the slice of seasonPeriod entries
starting at s times seasonPeriod, summed and divided by seasonPeriod. -/
def seasonAverage (series : List Rat) (p s : Nat) : Rat :=
  (((series.drop (s * p)).take p).foldl (· + ·) 0) / (p : Rat)

/-- Initial seasonal index at position i: the per-position deviation from the
average of each season, averaged over the seasons.  Out-of-range indexing
(which the length guard of the factory prevents) defaults to 0. -/
def initialSI (series : List Rat) (p seasons i : Nat) : Rat :=
  (((List.range seasons).map
    (fun s => series.getD (s * p + i) 0 - seasonAverage series p s)).foldl (· + ·) 0) /
    (seasons : Rat)

/-- One iteration of the Holt-Winters smoothing loop at time t with the
observed value: the level update reads the previous seasonal index, the trend
update reads the new level and the previous level, and the seasonal index at
t mod seasonPeriod is rewritten from the new level and the previous index. -/
def hwStep (alpha beta gamma : Rat) (p : Nat) (st : HWState) (t : Nat) (value : Rat) :
    HWState :=
  let idx := t % p
  let prevLevel := st.level
  let prevSI := st.si.getD idx 0
  let level := alpha * (value - prevSI) + (1 - alpha) * (st.level + st.trend)
  let trend := beta * (level - prevLevel) + (1 - beta) * st.trend
  ⟨level, trend, st.si.set idx (gamma * (value - level) + (1 - gamma) * prevSI)⟩

/-- The smoothing loop of the factory, iterating once through the series in
order with the running time index. -/
def hwLoop (alpha beta gamma : Rat) (p : Nat) : Nat → List Rat → HWState → HWState
  | _, [], st => st
  | t, v :: rest, st => hwLoop alpha beta gamma p (t + 1) rest (hwStep alpha beta gamma p st t v)

/-- Initialization plus smoothing of the Holt-Winters factory: seasons is the
floor of length over seasonPeriod, the initial seasonal indices come from the
per-season deviations, the initial level is the first observation and the
initial trend is the first observation of season two minus the first
observation, then the smoothing loop runs over the whole series. -/
def hwFit (series : List Rat) (p : Nat) (alpha beta gamma : Rat) : HWState :=
  let seasons := series.length / p
  let si0 := (List.range p).map (initialSI series p seasons)
  hwLoop alpha beta gamma p 0 series
    ⟨series.getD 0 0, series.getD p 0 - series.getD 0 0, si0⟩

/-- Point forecast of the fitted model for horizon hh: for each step i from 1
to hh, level plus i times trend plus the seasonal index at
(length + i - 1) mod seasonPeriod. -/
def pointForecast (series : List Rat) (p : Nat) (st : HWState) (hh : Nat) : List Rat :=
  (List.range hh).map (fun i0 =>
    st.level + ((i0 + 1 : Nat) : Rat) * st.trend +
      st.si.getD ((series.length + (i0 + 1) - 1) % p) 0)

/-- Back-cast fitted value at time t used for the residuals: level plus
(t - length) times trend plus the seasonal index at t mod seasonPeriod. -/
def backcast (st : HWState) (n p t : Nat) : Rat :=
  st.level + ((t : Rat) - (n : Rat)) * st.trend + st.si.getD (t % p) 0

/-- Accumulating sum of squared residuals of the back-cast, the reduce over
the residual array. -/
def residSumSqAux (st : HWState) (n p : Nat) : Nat → Rat → List Rat → Rat
  | _, acc, [] => acc
  | t, acc, v :: rest =>
      residSumSqAux st n p (t + 1)
        (acc + (v - backcast st n p t) * (v - backcast st n p t)) rest

/-- Sum of the squared back-cast residuals of the fitted model over the
series. -/
def residualSumSq (series : List Rat) (p : Nat) (st : HWState) : Rat :=
  residSumSqAux st series.length p 0 0 series

/-- Embedding of the residual-spread computation of the factory, written
exactly as the JS expression parses: the sum of squared residuals divided by
the square root of (length - 1) (the exponent binds tighter than the
division), with a falsy result (0, or the undefined values that arise for
length at most 1, which the real square root also sends to 0) replaced by 1. -/
noncomputable def hwSpread (series : List Rat) (p : Nat) (st : HWState) : Real :=
  let raw : Real := (residualSumSq series p st : Real) /
    Real.sqrt ((series.length : Real) - 1)
  if raw = 0 then 1 else raw

/-- Modelled from the spec: the standard deviation of the back-cast residuals,
the quantity the confidence interval is specified (and the code comments
claim) to scale by the z-value.  Written from the words of the spec for
comparison with hwSpread, the quantity the code actually computes. -/
noncomputable def residualStdSpec (series : List Rat) (p : Nat) (st : HWState) : Real :=
  Real.sqrt ((residualSumSq series p st : Real) / ((series.length : Real) - 1))

/-- Embedding of the z-value lookup of the confidence computation: a fixed
table for the five common levels, with every other level falling back to
1.96 via the nullish coalescing. -/
def zValue (lv : Rat) : Rat :=
  if lv = 0.8 then 1.282
  else if lv = 0.9 then 1.645
  else if lv = 0.95 then 1.96
  else if lv = 0.98 then 2.326
  else if lv = 0.99 then 2.576
  else 1.96

/-- Embedding of the confidence-interval computation of the factory: the point
forecasts shifted down and up by the half-width, the z-value for the
requested level times the residual spread. -/
noncomputable def hwConfidence (series : List Rat) (p : Nat) (alpha beta gamma : Rat)
    (lv : Rat) (hh : Nat) : List Real × List Real :=
  let st := hwFit series p alpha beta gamma
  let pf := pointForecast series p st hh
  let half : Real := (zValue lv : Real) * hwSpread series p st
  (pf.map (fun v => (v : Real) - half), pf.map (fun v => (v : Real) + half))

/-- Embedding of the Holt-Winters factory entry point: the guard throws when
the series holds fewer than two full seasons of observations, otherwise the
model is fitted.  For a season period of at least 1 this is the only
error path of the factory. -/
def holtWintersE (series : List Rat) (p : Nat) (alpha beta gamma : Rat) :
    Except String HWState :=
  if series.length < p * 2 then Except.error "insufficient observations"
  else Except.ok (hwFit series p alpha beta gamma)

end SDV

namespace SDV

@[simp] theorem tsList_nil : tsList [] = [] := rfl

@[simp] theorem tsList_cons (t : Tick) (l : List Tick) :
    tsList (t :: l) = t.ts :: tsList l := rfl

theorem mem_tsList_upsertTick {l : List Tick} {nt : Tick} {x : Int}
    (h : x ∈ tsList (upsertTick l nt)) : x ∈ tsList l ∨ x = nt.ts := by
  induction l with
  | nil =>
    right
    rw [upsertTick, tsList_cons, tsList_nil, List.mem_cons] at h
    simpa using h
  | cons t rest ih =>
    by_cases hts : t.ts = nt.ts
    · rw [upsertTick, if_pos hts, tsList_cons, List.mem_cons] at h
      rcases h with h | h
      · right; rw [h]; exact hts
      · left; rw [tsList_cons]; exact List.mem_cons_of_mem _ h
    · rw [upsertTick, if_neg hts, tsList_cons, List.mem_cons] at h
      rcases h with h | h
      · left; rw [tsList_cons, h]; exact List.mem_cons_self _ _
      · rcases ih h with h2 | h2
        · left; rw [tsList_cons]; exact List.mem_cons_of_mem _ h2
        · right; exact h2

theorem nodup_tsList_upsertTick {l : List Tick} {nt : Tick}
    (h : (tsList l).Nodup) : (tsList (upsertTick l nt)).Nodup := by
  induction l with
  | nil => simp [upsertTick]
  | cons t rest ih =>
    rw [tsList_cons, List.nodup_cons] at h
    by_cases hts : t.ts = nt.ts
    · rw [upsertTick, if_pos hts, tsList_cons, List.nodup_cons]
      exact ⟨h.1, h.2⟩
    · rw [upsertTick, if_neg hts, tsList_cons, List.nodup_cons]
      refine ⟨fun hmem => ?_, ih h.2⟩
      rcases mem_tsList_upsertTick hmem with h2 | h2
      · exact h.1 h2
      · exact hts h2

theorem mem_upsertTick_self (l : List Tick) (nt : Tick) : nt ∈ upsertTick l nt := by
  induction l with
  | nil => rw [upsertTick]; exact List.mem_singleton_self nt
  | cons t rest ih =>
    by_cases hts : t.ts = nt.ts
    · rw [upsertTick, if_pos hts]
      have : ({ t with count := nt.count } : Tick) = nt := by
        cases nt; cases t; simp_all
      rw [this]
      exact List.mem_cons_self _ _
    · rw [upsertTick, if_neg hts]
      exact List.mem_cons_of_mem _ ih

theorem tsList_upsertTick_of_mem {l : List Tick} {nt : Tick}
    (h : nt.ts ∈ tsList l) : tsList (upsertTick l nt) = tsList l := by
  induction l with
  | nil => exact absurd h (by simp)
  | cons t rest ih =>
    by_cases hts : t.ts = nt.ts
    · rw [upsertTick, if_pos hts, tsList_cons, tsList_cons]
    · rw [tsList_cons, List.mem_cons] at h
      rcases h with h | h
      · exact absurd h.symm hts
      · rw [upsertTick, if_neg hts, tsList_cons, tsList_cons, ih h]

theorem tsList_eq_map (l : List Tick) : tsList l = l.map (·.ts) := rfl

theorem sortTicks_perm (l : List Tick) : List.Perm (sortTicks l) l :=
  List.perm_insertionSort tsLe l

theorem sortTicks_sorted (l : List Tick) : List.Sorted tsLe (sortTicks l) :=
  List.sorted_insertionSort tsLe l

theorem nodup_tsList_of_perm {l l' : List Tick} (hp : List.Perm l l')
    (h : (tsList l).Nodup) : (tsList l').Nodup := by
  rw [tsList_eq_map] at h ⊢
  exact ((hp.map (·.ts)).nodup_iff).mp h

/-- Strict sortedness by timestamp: sorted together with pairwise-distinct
timestamps upgrades the comparator to a strict one. -/
theorem pairwise_lt_of_sorted_nodup {l : List Tick}
    (hs : List.Sorted tsLe l) (hn : (tsList l).Nodup) :
    l.Pairwise (fun a b => a.ts < b.ts) := by
  have hn2 : (l.map (fun t : Tick => t.ts)).Pairwise (· ≠ ·) := by
    simpa [tsList_eq_map, List.Nodup] using hn
  have hne : l.Pairwise (fun a b => a.ts ≠ b.ts) := List.pairwise_map.mp hn2
  exact (hs.and hne).imp (fun h => lt_of_le_of_ne h.1 h.2)

theorem tickWrite_nodup {arr : List Tick} (keep : Tick → Bool) (doClean : Bool)
    (nt : Tick) (h : (tsList arr).Nodup) : (tsList (tickWrite keep doClean arr nt)).Nodup := by
  have hfil : (tsList (if doClean then arr.filter keep else arr)).Nodup := by
    by_cases hd : doClean
    · simp only [hd, if_true, tsList_eq_map]
      rw [tsList_eq_map] at h
      exact (List.Sublist.map (fun t : Tick => t.ts) (List.filter_sublist arr)).nodup h
    · simpa [hd] using h
  have hup : (tsList (upsertTick (if doClean then arr.filter keep else arr) nt)).Nodup :=
    nodup_tsList_upsertTick hfil
  exact nodup_tsList_of_perm (sortTicks_perm _).symm hup

theorem tickWrite_pairwise_lt {arr : List Tick} (keep : Tick → Bool) (doClean : Bool)
    (nt : Tick) (h : (tsList arr).Nodup) :
    (tickWrite keep doClean arr nt).Pairwise (fun a b => a.ts < b.ts) :=
  pairwise_lt_of_sorted_nodup (sortTicks_sorted _) (tickWrite_nodup keep doClean nt h)

theorem tickWrite_storeInv {arr : List Tick} (keep : Tick → Bool) (doClean : Bool)
    (nt : Tick) (h : (tsList arr).Nodup) : StoreInv (tickWrite keep doClean arr nt) :=
  ⟨tickWrite_nodup keep doClean nt h, tickWrite_pairwise_lt keep doClean nt h⟩

theorem applyWrites_storeInv (ws : List WriteOp) : StoreInv (applyWrites ws) := by
  suffices h : ∀ s : List Tick, StoreInv s →
      StoreInv (ws.foldl (fun arr w => tickWrite w.keep w.doClean arr w.tick) s) by
    exact h [] ⟨by simp, List.Pairwise.nil⟩
  induction ws with
  | nil => intro s hs; simpa using hs
  | cons w rest ih =>
    intro s hs
    exact ih _ (tickWrite_storeInv w.keep w.doClean w.tick hs.1)

/-- Claim C1 theorem. For every sequence of accepted ingestion writes (each an
upsert of a tick into the store, possibly preceded by the archival filter),
the resulting persisted store, which readAll returns verbatim, is strictly
sorted ascending by ts, hence has no two entries with the same ts; moreover a
write whose ts is already present replaces that entry in place: the timestamp
list is unchanged and the new tick is a member, so no second entry appears. -/
theorem readAll_strictly_sorted_and_upsert_replaces (ws : List WriteOp)
    (arr : List Tick) (nt : Tick) (hmem : nt.ts ∈ tsList arr) :
    (applyWrites ws).Pairwise (fun a b => a.ts < b.ts) ∧
    tsList (upsertTick arr nt) = tsList arr ∧ nt ∈ upsertTick arr nt :=
  ⟨(applyWrites_storeInv ws).2, tsList_upsertTick_of_mem hmem, mem_upsertTick_self arr nt⟩

theorem mem_retainedRows {store : List Tick} {now : Int} {t : Tick}
    (h : t ∈ retainedRows store now) : now - RETENTION_MS < t.ts := by
  have hmem : t ∈ store.filter (inRetention now) :=
    (sortTicks_perm _).subset h
  have := (List.mem_filter.mp hmem).2
  simpa [inRetention] using this

theorem mem_of_mem_everyKth {l : List Tick} {k : Nat} {t : Tick}
    (h : t ∈ everyKth l k) : t ∈ l := by
  rcases List.mem_map.mp h with ⟨p, hp, rfl⟩
  have hpe : p ∈ l.enum := (List.mem_filter.mp hp).1
  rw [List.mem_enum_iff_getElem?] at hpe
  exact List.getElem?_mem hpe

/-- Claim C2 theorem. Every tick returned by the relational history read has a
timestamp strictly greater than now minus the 26-hour retention window, so no
tick older than the retention cutoff is ever returned, in every branch of the
query (unlimited, LIMIT-truncated, or down-sampled). -/
theorem read_never_returns_expired (store : List Tick) (now limit : Int) (t : Tick)
    (h : t ∈ getHistoryData store now limit) : now - RETENTION_MS < t.ts := by
  unfold getHistoryData at h
  by_cases h1 : 0 < limit
  · by_cases h2 : 10000 < limit
    · simp only [h1, h2, if_true] at h
      exact mem_retainedRows (mem_of_mem_everyKth h)
    · simp only [h1, h2, if_true, if_false] at h
      exact mem_retainedRows ((List.take_sublist _ _).subset h)
  · simp only [h1, if_false] at h
    exact mem_retainedRows h

/-- Witness for the C2 theorem on a concrete store, time and tick. -/
theorem read_never_returns_expired_witness :
    ((⟨93600005, 7⟩ : Tick) ∈ getHistoryData [⟨1, 3⟩, ⟨93600005, 7⟩] 93600010 0) ∧
    (93600010 : Int) - RETENTION_MS < 93600005 :=
  ⟨by decide,
   read_never_returns_expired [⟨1, 3⟩, ⟨93600005, 7⟩] 93600010 0 ⟨93600005, 7⟩ (by decide)⟩

theorem everyKth_sublist (l : List Tick) (k : Nat) : (everyKth l k).Sublist l := by
  have h1 : (l.enum.filter (fun p => (p.1 + 1) % k = 0)).Sublist l.enum :=
    List.filter_sublist l.enum
  have h2 := h1.map (·.2)
  simpa [everyKth, List.enum_map_snd] using h2

/-- Claim C9, amended, theorem. An oversized history query is not rejected: in
every branch the result is a subsequence of the in-window rows, and for a
positive size cap of at most 10000 the result is exactly the first
min(limit, total) in-window rows, a truncation rather than an evenly spaced
selection (the cited down-sampling query runs only for caps above 10000 and
keeps the rows at 1-based positions divisible by the step). -/
theorem getHistoryData_never_rejects_sublist (store : List Tick) (now limit : Int) :
    (getHistoryData store now limit).Sublist (retainedRows store now) ∧
    (0 < limit → limit ≤ 10000 →
      getHistoryData store now limit = (retainedRows store now).take limit.toNat) := by
  constructor
  · unfold getHistoryData
    by_cases h1 : 0 < limit
    · by_cases h2 : 10000 < limit
      · simp only [h1, h2, if_true]
        exact everyKth_sublist _ _
      · simp only [h1, h2, if_true, if_false]
        exact List.take_sublist _ _
    · simp [h1]
  · intro h1 h2
    unfold getHistoryData
    simp only [h1, if_true, show ¬ (10000 < limit) by omega, if_false]

/-- Witness for the amended C9 theorem at a concrete query. -/
theorem getHistoryData_never_rejects_sublist_witness :
    (getHistoryData [⟨1, 10⟩, ⟨2, 20⟩, ⟨3, 30⟩] 93600000 2).Sublist
      (retainedRows [⟨1, 10⟩, ⟨2, 20⟩, ⟨3, 30⟩] 93600000) ∧
    (0 : Int) < 2 ∧ (2 : Int) ≤ 10000 ∧
    getHistoryData [⟨1, 10⟩, ⟨2, 20⟩, ⟨3, 30⟩] 93600000 2 =
      (retainedRows [⟨1, 10⟩, ⟨2, 20⟩, ⟨3, 30⟩] 93600000).take (2 : Int).toNat := by
  have h := getHistoryData_never_rejects_sublist [⟨1, 10⟩, ⟨2, 20⟩, ⟨3, 30⟩] 93600000 2
  exact ⟨h.1, by decide, by decide, h.2 (by decide) (by decide)⟩

/-- Counterexample for claim C9 as stated: with three in-window ticks and size
cap 2 the query result exceeds the cap, and the code truncates to the first
two rows, so the last in-window tick is not included, contradicting that the
returned list always includes the first and the last in-window tick. -/
theorem getHistoryData_drops_last_counterexample :
    (retainedRows [⟨1, 10⟩, ⟨2, 20⟩, ⟨3, 30⟩] 93600000).getLast? = some ⟨3, 30⟩ ∧
    2 < (retainedRows [⟨1, 10⟩, ⟨2, 20⟩, ⟨3, 30⟩] 93600000).length ∧
    (⟨3, 30⟩ : Tick) ∉ getHistoryData [⟨1, 10⟩, ⟨2, 20⟩, ⟨3, 30⟩] 93600000 2 := by
  decide

theorem mem_tickWrite_self (keep : Tick → Bool) (doClean : Bool) (arr : List Tick)
    (nt : Tick) : nt ∈ tickWrite keep doClean arr nt :=
  ((sortTicks_perm _).mem_iff).mpr (mem_upsertTick_self _ nt)

theorem countP_ts_eq_one {s : List Tick} {nt : Tick}
    (hnd : (tsList s).Nodup) (hmem : nt ∈ s) :
    s.countP (fun t => t.ts == nt.ts) = 1 := by
  induction s with
  | nil => cases hmem
  | cons a rest ih =>
    rw [tsList_cons, List.nodup_cons] at hnd
    rw [List.countP_cons]
    rcases List.mem_cons.mp hmem with rfl | hmem'
    · have hz : rest.countP (fun t => t.ts == nt.ts) = 0 := by
        rw [List.countP_eq_zero]
        intro t ht
        have hts : t.ts ∈ tsList rest := List.mem_map_of_mem (·.ts) ht
        simp only [beq_iff_eq]
        intro he
        exact hnd.1 (by rw [← he]; exact hts)
      simp [hz]
    · have hne : a.ts ≠ nt.ts := by
        intro he
        exact hnd.1 (by rw [he]; exact List.mem_map_of_mem (·.ts) hmem')
      simp [ih hnd.2 hmem', hne]

/-- Claim C3 theorem. Submitting a valid pair that is not already the
last-written pair succeeds, leaves exactly one stored entry carrying that
timestamp, and an immediately repeated identical submission is a
success-equivalent no-op: it also returns the 204 acknowledgement and leaves
the whole server state (store included) unchanged. -/
theorem ingest_idempotent (st : ServerState) (now tsv cnt : Int)
    (keep : Tick → Bool) (doClean : Bool)
    (hval : validTick now tsv cnt)
    (hfresh : st.lastWritten ≠ some ⟨tsv, cnt⟩)
    (hnd : (tsList st.store).Nodup) :
    (ingest st now tsv cnt keep doClean).1 = .ok ∧
    ingest (ingest st now tsv cnt keep doClean).2 now tsv cnt keep doClean =
      (.ok, (ingest st now tsv cnt keep doClean).2) ∧
    ((ingest st now tsv cnt keep doClean).2.store.countP (fun t => t.ts == tsv)) = 1 ∧
    (⟨tsv, cnt⟩ : Tick) ∈ (ingest st now tsv cnt keep doClean).2.store := by
  have hstep : ingest st now tsv cnt keep doClean =
      (.ok, ⟨some ⟨tsv, cnt⟩, tickWrite keep doClean st.store ⟨tsv, cnt⟩⟩) := by
    unfold ingest
    rw [if_neg (by simpa using hval), if_neg hfresh]
  refine ⟨by rw [hstep], ?_, ?_, ?_⟩
  · rw [hstep]
    unfold ingest
    rw [if_neg (by simpa using hval), if_pos rfl]
  · rw [hstep]
    exact countP_ts_eq_one (tickWrite_nodup keep doClean _ hnd)
      (mem_tickWrite_self keep doClean st.store ⟨tsv, cnt⟩)
  · rw [hstep]
    exact mem_tickWrite_self keep doClean st.store ⟨tsv, cnt⟩

/-- Witness for the C3 theorem at a concrete duplicate submission. -/
theorem ingest_idempotent_witness :
    validTick 100000 1000 5 ∧
    ((ingest ⟨none, []⟩ 100000 1000 5 (fun _ => true) false).1 = .ok ∧
      ingest (ingest ⟨none, []⟩ 100000 1000 5 (fun _ => true) false).2 100000 1000 5
          (fun _ => true) false =
        (.ok, (ingest ⟨none, []⟩ 100000 1000 5 (fun _ => true) false).2) ∧
      ((ingest ⟨none, []⟩ 100000 1000 5 (fun _ => true) false).2.store.countP
        (fun t => t.ts == 1000)) = 1 ∧
      (⟨1000, 5⟩ : Tick) ∈ (ingest ⟨none, []⟩ 100000 1000 5 (fun _ => true) false).2.store) :=
  ⟨by decide,
   ingest_idempotent ⟨none, []⟩ 100000 1000 5 (fun _ => true) false (by decide)
     (by simp) (by simp [tsList])⟩

/-- Claim C4 theorem. The persistence step either installs the complete new
serialization or leaves the primary store file untouched: after any outcome
the primary file holds its previous content or the complete new array, and
when the temporary-file write or the rename fails the primary file is exactly
what it was before the write and the step reports failure. -/
theorem persist_failure_preserves_store (fs : StoreFS) (arr : List Tick)
    (outcome : PersistOutcome) (cleanupOk : Bool) :
    ((persistStore fs arr outcome cleanupOk).1.db = fs.db ∨
      (persistStore fs arr outcome cleanupOk).1.db = some (.complete arr)) ∧
    (outcome ≠ .allOk →
      (persistStore fs arr outcome cleanupOk).1.db = fs.db ∧
      (persistStore fs arr outcome cleanupOk).2 = false) := by
  cases outcome with
  | allOk => exact ⟨Or.inr rfl, fun h => absurd rfl h⟩
  | tmpWriteFails =>
    refine ⟨Or.inl ?_, fun _ => ⟨?_, ?_⟩⟩ <;>
      · cases cleanupOk <;> simp [persistStore]
  | renameFails =>
    refine ⟨Or.inl ?_, fun _ => ⟨?_, ?_⟩⟩ <;>
      · cases cleanupOk <;> simp [persistStore]

/-- Witness for the C4 theorem at a concrete failing write. -/
theorem persist_failure_preserves_store_witness :
    ((persistStore ⟨some (.complete [⟨1, 2⟩]), none⟩ [⟨1, 2⟩, ⟨3, 4⟩]
        .renameFails true).1.db = some (.complete [⟨1, 2⟩]) ∨
      (persistStore ⟨some (.complete [⟨1, 2⟩]), none⟩ [⟨1, 2⟩, ⟨3, 4⟩]
        .renameFails true).1.db = some (.complete [⟨1, 2⟩, ⟨3, 4⟩])) ∧
    (persistStore ⟨some (.complete [⟨1, 2⟩]), none⟩ [⟨1, 2⟩, ⟨3, 4⟩]
      .renameFails true).1.db = some (.complete [⟨1, 2⟩]) ∧
    (persistStore ⟨some (.complete [⟨1, 2⟩]), none⟩ [⟨1, 2⟩, ⟨3, 4⟩]
      .renameFails true).2 = false := by
  have h := persist_failure_preserves_store ⟨some (.complete [⟨1, 2⟩]), none⟩
    [⟨1, 2⟩, ⟨3, 4⟩] .renameFails true
  exact ⟨h.1, h.2 (by decide)⟩

theorem foldl_min_of_le {c : Int} {cs : List Int} (h : ∀ x ∈ cs, c ≤ x) :
    cs.foldl min c = c := by
  induction cs generalizing c with
  | nil => rfl
  | cons x xs ih =>
    rw [List.foldl_cons, min_eq_left (h x (List.mem_cons_self x xs))]
    exact ih fun y hy => h y (List.mem_cons_of_mem _ hy)

theorem foldl_max_eq_getLast? {c : Int} {cs : List Int}
    (h : (c :: cs).Pairwise (· ≤ ·)) :
    some (cs.foldl max c) = (c :: cs).getLast? := by
  induction cs generalizing c with
  | nil => rfl
  | cons x xs ih =>
    rw [List.pairwise_cons] at h
    rw [List.foldl_cons, max_eq_right (h.1 x (List.mem_cons_self x xs)),
      List.getLast?_cons_cons]
    exact ih h.2

theorem mem_of_getLast?_eq {α : Type} {l : List α} {a : α}
    (h : l.getLast? = some a) : a ∈ l := by
  rcases List.mem_getLast?_eq_getLast (show a ∈ l.getLast? from h) with ⟨hne, rfl⟩
  exact List.getLast_mem hne

theorem calculateTodayStats_collected_eq (store : List Tick) (now : Int)
    {mn mx : Int}
    (hmin : ((todayRows store now).map (·.count)).min? = some mn)
    (hmax : ((todayRows store now).map (·.count)).max? = some mx) :
    (calculateTodayStats store now).collected = max 0 (mx - mn) := by
  simp only [calculateTodayStats, hmin, hmax]

/-- Claim C5, amended, theorem. The today-stats computation takes as baseline
the minimum count among ticks at or after the local day start and returns
collected as the clamped difference max(0, maximum count minus minimum
count); when the store is sorted by ts with non-decreasing counts this equals
last count minus first count, so the claimed first/last description holds
exactly on monotone data (and gives 280 for a day running 500 to 780); with no
tick at or after day start, collected is 0 and the baseline is unknown. -/
theorem calculateTodayStats_minmax_baseline (store : List Tick) (now : Int)
    (_hsorted : List.Sorted tsLe store)
    (hmono : store.Pairwise (fun a b => a.count ≤ b.count)) :
    (todayRows store now = [] →
      (calculateTodayStats store now).collected = 0 ∧
      (calculateTodayStats store now).baselineKnown = false) ∧
    (∀ f l, (todayRows store now).head? = some f →
      (todayRows store now).getLast? = some l →
      (calculateTodayStats store now).collected = l.count - f.count ∧
      (calculateTodayStats store now).baselineKnown = true) := by
  constructor
  · intro hrows
    simp [calculateTodayStats, hrows]
  · intro f l hhead hlast
    have hmonoR : (todayRows store now).Pairwise (fun a b => a.count ≤ b.count) :=
      hmono.sublist (List.filter_sublist store)
    cases hr : todayRows store now with
    | nil => rw [hr] at hhead; cases hhead
    | cons a rest =>
      rw [hr] at hhead hlast hmonoR
      have haf : a = f := by simpa using hhead
      subst haf
      have hall : ∀ x ∈ rest.map (·.count), a.count ≤ x := by
        intro x hx
        rcases List.mem_map.mp hx with ⟨t, ht, rfl⟩
        exact (List.pairwise_cons.mp hmonoR).1 t ht
      have hmin : ((todayRows store now).map (·.count)).min? = some a.count := by
        rw [hr, List.map_cons]
        show some ((rest.map (·.count)).foldl min a.count) = some a.count
        rw [foldl_min_of_le hall]
      have hpairle : (a.count :: rest.map (·.count)).Pairwise (· ≤ ·) := by
        rw [show a.count :: rest.map (·.count) = (a :: rest).map (·.count) from rfl]
        exact List.pairwise_map.mpr hmonoR
      have hmax : ((todayRows store now).map (·.count)).max? = some l.count := by
        rw [hr, List.map_cons]
        show some ((rest.map (·.count)).foldl max a.count) = some l.count
        calc some ((rest.map (·.count)).foldl max a.count)
            = (a.count :: rest.map (·.count)).getLast? := foldl_max_eq_getLast? hpairle
          _ = ((a :: rest).map (·.count)).getLast? := by rw [List.map_cons]
          _ = ((a :: rest).getLast?).map (·.count) := List.getLast?_map _ _
          _ = some l.count := by rw [hlast]; rfl
      have hle : a.count ≤ l.count := by
        rcases List.mem_cons.mp (mem_of_getLast?_eq hlast) with rfl | hmem
        · exact le_refl _
        · exact (List.pairwise_cons.mp hmonoR).1 l hmem
      refine ⟨?_, by simp [calculateTodayStats, hr]⟩
      rw [calculateTodayStats_collected_eq store now hmin hmax,
        max_eq_right (by omega)]

/-- Witness for the amended C5 theorem: a monotone day whose first tick has
count 500 and last tick has count 780 yields collected 280. -/
theorem calculateTodayStats_minmax_baseline_witness :
    (todayRows [⟨79200000, 500⟩, ⟨79250000, 600⟩, ⟨79300000, 780⟩] 100000000).head? =
      some ⟨79200000, 500⟩ ∧
    (todayRows [⟨79200000, 500⟩, ⟨79250000, 600⟩, ⟨79300000, 780⟩] 100000000).getLast? =
      some ⟨79300000, 780⟩ ∧
    (calculateTodayStats [⟨79200000, 500⟩, ⟨79250000, 600⟩, ⟨79300000, 780⟩]
      100000000).collected = 280 := by
  have h := (calculateTodayStats_minmax_baseline
    [⟨79200000, 500⟩, ⟨79250000, 600⟩, ⟨79300000, 780⟩] 100000000
    (by decide) (by decide)).2 ⟨79200000, 500⟩ ⟨79300000, 780⟩ (by decide) (by decide)
  exact ⟨by decide, by decide, by rw [h.1]; decide⟩

/-- Counterexample for claim C5 as stated: on a day whose counts decrease
(first tick count 500, last tick count 480) the code returns
collected = max(0, MAX - MIN) = 20, not last minus first = -20, so collected
is not the last count minus the count of the first tick of the day. -/
theorem calculateTodayStats_counterexample :
    (todayRows [⟨79200000, 500⟩, ⟨79210000, 480⟩] 100000000).head? =
      some ⟨79200000, 500⟩ ∧
    (todayRows [⟨79200000, 500⟩, ⟨79210000, 480⟩] 100000000).getLast? =
      some ⟨79210000, 480⟩ ∧
    (calculateTodayStats [⟨79200000, 500⟩, ⟨79210000, 480⟩] 100000000).collected = 20 ∧
    (calculateTodayStats [⟨79200000, 500⟩, ⟨79210000, 480⟩] 100000000).collected ≠
      480 - 500 := by
  decide

/-- Claim C6, amended, theorem. With at least two ticks in the trailing
window, a and b the first and last of the sorted in-window selection, and a
positive time delta, the client rate computation returns exactly
(countLast - countFirst) / ((tsLast - tsFirst)/1000) scaled to the target
unit, with no clamping: when the count decreases inside the window the
returned rate is strictly negative. -/
theorem calculateRate_formula_unclamped (h : List Tick) (now windowMs : Int)
    (unit : Rat) (a b : Tick)
    (hlen : 2 ≤ (h.filter (fun t => decide (now - t.ts ≤ windowMs))).length)
    (hhead : (sortTicks (h.filter (fun t => decide (now - t.ts ≤ windowMs)))).head? = some a)
    (hlast : (sortTicks (h.filter (fun t => decide (now - t.ts ≤ windowMs)))).getLast? = some b)
    (hts : a.ts < b.ts) :
    calculateRate h now windowMs unit =
      ((b.count - a.count : Int) : Rat) / (((b.ts - a.ts : Int) : Rat) / 1000) * unit ∧
    (0 < unit → b.count < a.count → calculateRate h now windowMs unit < 0) := by
  have hdtpos : (0 : Rat) < ((b.ts - a.ts : Int) : Rat) / 1000 := by
    apply div_pos _ (by norm_num)
    exact_mod_cast sub_pos.mpr hts
  have hrate : calculateRate h now windowMs unit =
      ((b.count - a.count : Int) : Rat) / (((b.ts - a.ts : Int) : Rat) / 1000) * unit := by
    unfold calculateRate
    simp only [hlen, if_true, hhead, hlast, rateFrom, hdtpos]
  refine ⟨hrate, fun hu hc => ?_⟩
  rw [hrate]
  apply mul_neg_of_neg_of_pos _ hu
  apply div_neg_of_neg_of_pos _ hdtpos
  exact_mod_cast sub_neg.mpr hc

/-- Witness for the amended C6 theorem at a concrete two-tick window. -/
theorem calculateRate_formula_unclamped_witness :
    calculateRate [⟨1000, 10⟩, ⟨2000, 40⟩] 2000 30000 60 =
      ((40 - 10 : Int) : Rat) / (((2000 - 1000 : Int) : Rat) / 1000) * 60 ∧
    ((0 : Rat) < 60 → (40 : Int) < 10 →
      calculateRate [⟨1000, 10⟩, ⟨2000, 40⟩] 2000 30000 60 < 0) :=
  calculateRate_formula_unclamped [⟨1000, 10⟩, ⟨2000, 40⟩] 2000 30000 60
    ⟨1000, 10⟩ ⟨2000, 40⟩ (by decide) (by decide) (by decide) (by decide)

/-- Counterexample for claim C6 as stated: with a decreasing count inside the
window the client rate computation returns a negative rate (here -6 per
second), so the windowed rate is not clamped to be non-negative. -/
theorem calculateRate_negative_counterexample :
    calculateRate [⟨1000, 10⟩, ⟨2000, 4⟩] 2000 30000 1 < 0 := by
  have hfil : ([⟨1000, 10⟩, ⟨2000, 4⟩] : List Tick).filter
      (fun t => decide ((2000 : Int) - t.ts ≤ 30000)) = [⟨1000, 10⟩, ⟨2000, 4⟩] := by
    decide
  have hh : (sortTicks [⟨1000, 10⟩, ⟨2000, 4⟩]).head? = some ⟨1000, 10⟩ := by decide
  have hl : (sortTicks [⟨1000, 10⟩, ⟨2000, 4⟩]).getLast? = some ⟨2000, 4⟩ := by decide
  simp only [calculateRate, hfil, hh, hl]
  norm_num [rateFrom]

/-- Claim C7 theorem. The Holt-Winters factory signals an error exactly when
the series holds fewer than two full seasons of observations, and with at
least 2 times seasonPeriod observations it returns the fitted model without
error; the season period is assumed positive, the only regime in which the
factory runs at all. -/
theorem holtWinters_insufficient_iff (series : List Rat) (p : Nat) (a b g : Rat)
    (_hp : 1 ≤ p) :
    ((∃ msg, holtWintersE series p a b g = Except.error msg) ↔ series.length < 2 * p) ∧
    (2 * p ≤ series.length →
      holtWintersE series p a b g = Except.ok (hwFit series p a b g)) := by
  unfold holtWintersE
  constructor
  · constructor
    · rintro ⟨msg, hmsg⟩
      by_cases hlt : series.length < p * 2
      · omega
      · rw [if_neg hlt] at hmsg
        cases hmsg
    · intro hlt
      rw [if_pos (by omega)]
      exact ⟨_, rfl⟩
  · intro hge
    rw [if_neg (by omega)]

/-- Witness for the C7 theorem at a two-observation series with season period
one, the shortest series the factory accepts. -/
theorem holtWinters_insufficient_iff_witness :
    (1 ≤ 1) ∧
    (((∃ msg, holtWintersE [0, 1] 1 (0.3) (0.1) (0.3) = Except.error msg) ↔
        ([0, 1] : List Rat).length < 2 * 1) ∧
      (2 * 1 ≤ ([0, 1] : List Rat).length →
        holtWintersE [0, 1] 1 (0.3) (0.1) (0.3) =
          Except.ok (hwFit [0, 1] 1 (0.3) (0.1) (0.3)))) :=
  ⟨by decide, holtWinters_insufficient_iff [0, 1] 1 (0.3) (0.1) (0.3) (by decide)⟩

theorem residualSumSq_demo_gt_one :
    1 < residualSumSq [0, 1] 1 (hwFit [0, 1] 1 (0.3) (0.1) (0.3)) := by
  norm_num [residualSumSq, residSumSqAux, backcast, hwFit, hwLoop, hwStep,
    initialSI, seasonAverage, List.range_succ, List.getD_cons_zero,
    List.getD_cons_succ, List.foldl_cons, List.foldl_nil]

/-- Claim C8 theorem, recording the code bug. At the concrete fitted model
over the series 0, 1 with season period 1 and the default smoothing
constants, the confidence interval is indeed symmetric around each point
forecast with half-width z-value times the computed spread, but the computed
spread differs from the standard deviation of the back-cast residuals that
both the spec and the code comment describe: the expression divides the sum
of squared residuals by the square root of (n - 1) instead of taking the
square root of their quotient. -/
theorem hw_confidence_halfwidth_code_bug :
    (∀ lv : Rat, ∀ hh : Nat,
      (hwConfidence [0, 1] 1 (0.3) (0.1) (0.3) lv hh).1 =
        (pointForecast [0, 1] 1 (hwFit [0, 1] 1 (0.3) (0.1) (0.3)) hh).map
          (fun v => (v : Real) -
            (zValue lv : Real) * hwSpread [0, 1] 1 (hwFit [0, 1] 1 (0.3) (0.1) (0.3))) ∧
      (hwConfidence [0, 1] 1 (0.3) (0.1) (0.3) lv hh).2 =
        (pointForecast [0, 1] 1 (hwFit [0, 1] 1 (0.3) (0.1) (0.3)) hh).map
          (fun v => (v : Real) +
            (zValue lv : Real) * hwSpread [0, 1] 1 (hwFit [0, 1] 1 (0.3) (0.1) (0.3)))) ∧
    hwSpread [0, 1] 1 (hwFit [0, 1] 1 (0.3) (0.1) (0.3)) ≠
      residualStdSpec [0, 1] 1 (hwFit [0, 1] 1 (0.3) (0.1) (0.3)) := by
  refine ⟨fun lv hh => ⟨rfl, rfl⟩, ?_⟩
  have hq : (1 : Rat) < residualSumSq [0, 1] 1 (hwFit [0, 1] 1 (0.3) (0.1) (0.3)) :=
    residualSumSq_demo_gt_one
  have hqR : (1 : Real) < (residualSumSq [0, 1] 1 (hwFit [0, 1] 1 (0.3) (0.1) (0.3)) : Real) := by
    exact_mod_cast hq
  have hlen : ((([0, 1] : List Rat).length : Real) - 1) = 1 := by norm_num
  have hspread : hwSpread [0, 1] 1 (hwFit [0, 1] 1 (0.3) (0.1) (0.3)) =
      (residualSumSq [0, 1] 1 (hwFit [0, 1] 1 (0.3) (0.1) (0.3)) : Real) := by
    simp only [hwSpread, hlen, Real.sqrt_one, div_one]
    rw [if_neg (by linarith)]
  have hstd : residualStdSpec [0, 1] 1 (hwFit [0, 1] 1 (0.3) (0.1) (0.3)) =
      Real.sqrt (residualSumSq [0, 1] 1 (hwFit [0, 1] 1 (0.3) (0.1) (0.3)) : Real) := by
    simp only [residualStdSpec, hlen, div_one]
  rw [hspread, hstd]
  intro heq
  have hsq : Real.sqrt (residualSumSq [0, 1] 1 (hwFit [0, 1] 1 (0.3) (0.1) (0.3)) : Real) *
      Real.sqrt (residualSumSq [0, 1] 1 (hwFit [0, 1] 1 (0.3) (0.1) (0.3)) : Real) =
      (residualSumSq [0, 1] 1 (hwFit [0, 1] 1 (0.3) (0.1) (0.3)) : Real) :=
    Real.mul_self_sqrt (by linarith)
  rw [← heq] at hsq
  nlinarith [hqR, hsq]

/-- Claim C10 theorem. Every requested confidence level either is one of the
five tabulated levels or silently receives the z-value 1.96; in particular
level 0.5 is not in the table, gets z-value 1.96, and produces exactly the
same confidence interval as level 0.95 for every fitted model and horizon. -/
theorem zValue_fallback_to_95 :
    (∀ lv : Rat, lv ∈ ([0.8, 0.9, 0.95, 0.98, 0.99] : List Rat) ∨ zValue lv = 1.96) ∧
    zValue (0.5) = 1.96 ∧
    (0.5 : Rat) ∉ ([0.8, 0.9, 0.95, 0.98, 0.99] : List Rat) ∧
    ∀ (series : List Rat) (p : Nat) (alpha beta gamma : Rat) (hh : Nat),
      hwConfidence series p alpha beta gamma (0.5) hh =
        hwConfidence series p alpha beta gamma (0.95) hh := by
  have h05 : zValue (0.5) = 1.96 := by norm_num [zValue]
  have h95 : zValue (0.95) = 1.96 := by norm_num [zValue]
  refine ⟨?_, h05, by norm_num, fun series p alpha beta gamma hh => ?_⟩
  · intro lv
    unfold zValue
    split_ifs with h1 h2 h3 h4 h5
    · left; simp [h1]
    · left; simp [h2]
    · left; simp [h3]
    · left; simp [h4]
    · left; simp [h5]
    · right; rfl
  · unfold hwConfidence
    rw [h05, h95]

/-- Witness for the C1 theorem at a concrete write sequence and a concrete
upsert on a store that already holds the incoming timestamp. -/
theorem readAll_strictly_sorted_and_upsert_replaces_witness :
    ((5 : Int) ∈ tsList [⟨3, 10⟩, ⟨5, 20⟩, ⟨9, 30⟩]) ∧
    ((applyWrites [⟨⟨7, 100⟩, fun _ => true, false⟩, ⟨⟨2, 50⟩, fun _ => true, false⟩,
        ⟨⟨7, 120⟩, fun _ => true, false⟩]).Pairwise (fun a b => a.ts < b.ts) ∧
      tsList (upsertTick [⟨3, 10⟩, ⟨5, 20⟩, ⟨9, 30⟩] ⟨5, 99⟩) =
        tsList [⟨3, 10⟩, ⟨5, 20⟩, ⟨9, 30⟩] ∧
      (⟨5, 99⟩ : Tick) ∈ upsertTick [⟨3, 10⟩, ⟨5, 20⟩, ⟨9, 30⟩] ⟨5, 99⟩) :=
  ⟨by decide,
   readAll_strictly_sorted_and_upsert_replaces _ _ ⟨5, 99⟩ (by decide)⟩

end SDV
